import Mathlib

/-!
Verification development for the RGCT_COUNTER frequency-analysis core.

We shallowly embed the two components named by the specification:

* the Analyzer (`analyzeData` and `normalizeKey` from `src/utils/processor.ts`),
  which turns a row set and a column name into a frequency table, and
* the EditHistory state machine (the `history` / `historyIndex` state of the
  Dashboard component, with its handlers `handleDeleteRow`, `handleUndo`,
  `handleRedo`, `handleResetData`).

Conventions of the embedding:

* JavaScript floating-point percentages are embedded as exact rationals (`ℚ`);
  the arithmetic performed by the source (`count / total * 100`) is written
  verbatim over `ℚ`.
* A row object is an association list from column name to cell value; a key
  being absent models `!Object.prototype.hasOwnProperty.call(row, column)`.
* A cell value is either a string or the JavaScript `null` and `undefined`
  (collapsed into one constructor, since `normalizeKey` treats them alike).
* `String.prototype.localeCompare` is embedded as code-point comparison
  (Lean's order on `String`), the locale-independent fallback ordering.
* JavaScript `Array.prototype.sort` (stable since ES2019) is embedded as
  `List.mergeSort`, which is stable.
* React state updates are embedded as pure functions from history state to
  history state; all functions are total, matching the fact that none of the
  source operations can throw.
-/

namespace RGCT

/-- A JavaScript cell value as far as `analyzeData` observes it:
a string, or `null` and `undefined` (which `normalizeKey` maps to the empty
key, so a row holding them is skipped). -/
inductive Value where
  | vstr : String → Value
  | vnull : Value
deriving DecidableEq, Repr

/-- `String(val)` for the values of `Value`; `normalizeKey` short-circuits on
`vnull` before stringifying, so the `"null"` branch is never reached on the
paths the analyzer takes. -/
def jsString : Value → String
  | .vstr s => s
  | .vnull => "null"

/-- JavaScript `String.prototype.trim`, embedded structurally over the
character list: drop whitespace from both ends. -/
def jsTrim (s : String) : String :=
  ⟨((s.data.dropWhile Char.isWhitespace).reverse.dropWhile Char.isWhitespace).reverse⟩

/-- JavaScript `String.prototype.toLowerCase`, embedded as per-character
lowercasing. -/
def jsToLower (s : String) : String :=
  ⟨s.data.map Char.toLower⟩

/-- `normalizeKey` from `src/utils/processor.ts`: null and undefined give the
empty string, otherwise the value is stringified, trimmed and lowercased. -/
def normalizeKey : Value → String
  | .vnull => ""
  | .vstr s => jsToLower (jsTrim s)

/-- A row object, restricted to what `analyzeData` reads: an association list
from column name to cell value. -/
def Row : Type := List (String × Value)

/-- `row[column]` guarded by `hasOwnProperty`: `none` when the row lacks the
column. -/
def getCell (row : Row) (column : String) : Option Value :=
  (List.find? (fun kv => kv.fst == column) row).map (fun kv => kv.snd)

/-- `FrequencyItem` from `src/types.ts`. `name` is the normalized key,
`originalName` the display form, `percentage` the exact rational the
floating-point code approximates. -/
structure FrequencyItem where
  name : String
  originalName : String
  count : Nat
  percentage : ℚ
deriving DecidableEq, Repr

/-- `AnalysisResult` from `src/types.ts`. -/
structure AnalysisResult where
  totalRows : Nat
  uniqueCategories : Nat
  data : List FrequencyItem
deriving DecidableEq, Repr

/-- One entry of the `frequencyMap` in `analyzeData`, together with its key:
the insertion-ordered `Map<string, {count, display}>` is embedded as a list of
these entries. -/
structure MapEntry where
  key : String
  count : Nat
  display : String
deriving DecidableEq, Repr

/-- The `frequencyMap` update for one counted row: increment the matching
entry, or append a fresh entry (JavaScript `Map` preserves insertion order). -/
def bump (key display : String) : List MapEntry → List MapEntry
  | [] => [⟨key, 1, display⟩]
  | e :: rest =>
      if e.key = key then { e with count := e.count + 1 } :: rest
      else e :: bump key display rest

/-- The body of the `data.forEach` loop in `analyzeData`: skip the row when
the column is absent or the value normalizes to the empty string, otherwise
count it and update the frequency map. -/
def rowStep (column : String) (st : List MapEntry × Nat) (row : Row) :
    List MapEntry × Nat :=
  match getCell row column with
  | none => st
  | some raw =>
      let key := normalizeKey raw
      if key = "" then st
      else (bump key (jsTrim (jsString raw)) st.1, st.2 + 1)

/-- The sort comparator of `analyzeData` as a boolean "may come before"
relation: count descending, ties broken by ascending `originalName`
(`localeCompare` embedded as code-point order). -/
def itemLe (a b : FrequencyItem) : Bool :=
  decide (b.count < a.count) ||
    (decide (a.count = b.count) && decide (a.originalName ≤ b.originalName))

/-- `analyzeData` from `src/utils/processor.ts`: accumulate the frequency map
and the total, project the map to `FrequencyItem`s with percentages against
the final total, sort, and package the result. -/
def analyzeData (data : List Row) (column : String) : AnalysisResult :=
  let acc := data.foldl (rowStep column) ([], 0)
  let totalRows := acc.2
  let items := acc.1.map (fun e =>
    { name := e.key
      originalName := e.display
      count := e.count
      percentage := if 0 < totalRows then (e.count : ℚ) / totalRows * 100 else 0
      : FrequencyItem })
  let sortedData := items.mergeSort itemLe
  { totalRows := totalRows
    uniqueCategories := sortedData.length
    data := sortedData }

/-- The Dashboard's edit-history state: the `history` array of snapshots and
the `historyIndex` cursor. -/
structure EditHistory where
  history : List (List FrequencyItem)
  historyIndex : Nat
deriving DecidableEq, Repr

/-- The initial history state: `[[...results.data]]` with index 0. -/
def initHistory (items : List FrequencyItem) : EditHistory :=
  { history := [items], historyIndex := 0 }

/-- `currentData = history[historyIndex]`. -/
def currentData (h : EditHistory) : List FrequencyItem :=
  h.history.getD h.historyIndex []

/-- The `reduce((sum, item) => sum + item.count, 0)` total of a snapshot. -/
def totalCount (items : List FrequencyItem) : Nat :=
  items.foldl (fun sum it => sum + it.count) 0

/-- `currentStats`: the derived `AnalysisResult` projection of the current
snapshot (total and category count recomputed, never stored). -/
def currentStats (h : EditHistory) : AnalysisResult :=
  { totalRows := totalCount (currentData h)
    uniqueCategories := (currentData h).length
    data := currentData h }

/-- Steps 1 and 2 of `handleDeleteRow`: filter out the items with the given
display name and recompute every remaining percentage against the new
total. -/
def deleteSnap (originalName : String) (items : List FrequencyItem) : List FrequencyItem :=
  let filteredData := items.filter (fun it => !(it.originalName == originalName))
  let newTotal : Nat := filteredData.foldl (fun sum it => sum + it.count) 0
  filteredData.map (fun it =>
    { it with percentage := if 0 < newTotal then (it.count : ℚ) / newTotal * 100 else 0 })

/-- `handleDeleteRow`: build the new snapshot from the current one
(`deleteSnap`), truncate the history to `[0..historyIndex]`
(`history.slice(0, historyIndex + 1)`), append the new snapshot, and move the
cursor to it. -/
def handleDeleteRow (originalName : String) (h : EditHistory) : EditHistory :=
  let newHistory := h.history.take (h.historyIndex + 1) ++ [deleteSnap originalName (currentData h)]
  { history := newHistory, historyIndex := newHistory.length - 1 }

/-- `handleUndo`: decrement the cursor when it is positive, else do nothing. -/
def handleUndo (h : EditHistory) : EditHistory :=
  if 0 < h.historyIndex then { h with historyIndex := h.historyIndex - 1 } else h

/-- `handleRedo`: increment the cursor when it is below the last index, else
do nothing. -/
def handleRedo (h : EditHistory) : EditHistory :=
  if h.historyIndex < h.history.length - 1 then
    { h with historyIndex := h.historyIndex + 1 }
  else h

/-- `handleResetData`: truncate the history to a copy of its first snapshot
and reset the cursor. -/
def handleResetData (h : EditHistory) : EditHistory :=
  { history := [h.history.getD 0 []], historyIndex := 0 }

/-- The user-visible operations of the edit-history state machine. -/
inductive Op where
  | deleteRow (originalName : String)
  | undo
  | redo
  | reset
deriving DecidableEq, Repr

/-- Apply one operation. -/
def applyOp : Op → EditHistory → EditHistory
  | .deleteRow n, h => handleDeleteRow n h
  | .undo, h => handleUndo h
  | .redo, h => handleRedo h
  | .reset, h => handleResetData h

/-- Run a sequence of operations from a state. -/
def runOps (ops : List Op) (h : EditHistory) : EditHistory :=
  ops.foldl (fun h op => applyOp op h) h

/-! ### Derived notions used to state the specification's invariants -/

/-- Sum of the counts of a frequency map. -/
def entrySum (m : List MapEntry) : Nat :=
  (m.map (fun e => e.count)).sum

/-- Sum of the percentages of a snapshot. -/
def pctSum (items : List FrequencyItem) : ℚ :=
  (items.map (fun it => it.percentage)).sum

/-- A snapshot is consistent when every item's percentage is the one the
source computes against the snapshot's own total: `count / total * 100`, or
`0` when the total is `0`. -/
def Consistent (items : List FrequencyItem) : Prop :=
  ∀ it ∈ items,
    it.percentage =
      if 0 < totalCount items then (it.count : ℚ) / (totalCount items : ℚ) * 100 else 0

/-- The edit-history invariant of the specification: a non-empty snapshot
list, a cursor in range, and every snapshot consistent. -/
def WF (h : EditHistory) : Prop :=
  h.history ≠ [] ∧ h.historyIndex < h.history.length ∧ ∀ s ∈ h.history, Consistent s

/-- The cells of the rows that `analyzeData` actually counts: the value of
the selected column, for rows that have the column and whose value does not
normalize to the empty string. -/
def countedCells (rows : List Row) (column : String) : List Value :=
  rows.filterMap (fun row =>
    match getCell row column with
    | none => none
    | some raw => if normalizeKey raw = "" then none else some raw)

/-- How many counted cells normalize to a given key. -/
def keyCount (k : String) (cells : List Value) : Nat :=
  (cells.filter (fun v => normalizeKey v == k)).length

/-- The first counted cell that normalizes to a given key. -/
def firstWithKey (k : String) (cells : List Value) : Option Value :=
  cells.find? (fun v => normalizeKey v == k)

/-- The per-cell accumulator step of `analyzeData`, after the skip tests have
passed. -/
def cellStep (st : List MapEntry × Nat) (raw : Value) : List MapEntry × Nat :=
  (bump (normalizeKey raw) (jsTrim (jsString raw)) st.1, st.2 + 1)

/-! ### Helper lemmas -/

theorem foldl_count_eq (l : List FrequencyItem) (n : Nat) :
    l.foldl (fun sum it => sum + it.count) n = n + (l.map (fun it => it.count)).sum := by
  induction l generalizing n with
  | nil => simp
  | cons a l ih => simp [ih]; omega

theorem totalCount_eq_sum (l : List FrequencyItem) :
    totalCount l = (l.map (fun it => it.count)).sum := by
  simpa using foldl_count_eq l 0

theorem sum_map_pct (l : List FrequencyItem) (T : ℚ) :
    (l.map (fun it => (it.count : ℚ) / T * 100)).sum
      = (((l.map (fun it => it.count)).sum : ℕ) : ℚ) / T * 100 := by
  induction l with
  | nil => simp
  | cons a l ih =>
      simp only [List.map_cons, List.sum_cons, ih]
      push_cast
      ring

theorem pctSum_of_consistent (l : List FrequencyItem) (hc : Consistent l)
    (hpos : 0 < totalCount l) : pctSum l = 100 := by
  have hmap : l.map (fun it => it.percentage)
      = l.map (fun it => (it.count : ℚ) / (totalCount l : ℚ) * 100) := by
    apply List.map_congr_left
    intro it hit
    simpa [hpos] using hc it hit
  have hTne : (totalCount l : ℚ) ≠ 0 := by
    exact_mod_cast Nat.pos_iff_ne_zero.mp hpos
  rw [pctSum, hmap, sum_map_pct, ← totalCount_eq_sum, div_self hTne, one_mul]

theorem deleteSnap_count_map (n : String) (items : List FrequencyItem) :
    (deleteSnap n items).map (fun it => it.count)
      = (items.filter (fun it => !(it.originalName == n))).map (fun it => it.count) := by
  simp [deleteSnap]

theorem totalCount_deleteSnap (n : String) (items : List FrequencyItem) :
    totalCount (deleteSnap n items)
      = totalCount (items.filter (fun it => !(it.originalName == n))) := by
  rw [totalCount_eq_sum, totalCount_eq_sum, deleteSnap_count_map]

theorem consistent_deleteSnap (n : String) (items : List FrequencyItem) :
    Consistent (deleteSnap n items) := by
  intro it hit
  rw [totalCount_deleteSnap]
  simp only [deleteSnap, List.mem_map] at hit
  obtain ⟨x, hx, rfl⟩ := hit
  simp [totalCount]

theorem entrySum_bump (k d : String) (m : List MapEntry) :
    entrySum (bump k d m) = entrySum m + 1 := by
  induction m with
  | nil => simp [bump, entrySum]
  | cons e rest ih =>
      by_cases hk : e.key = k
      · simp [bump, hk, entrySum]
        omega
      · simp only [bump, if_neg hk]
        simp [entrySum] at ih ⊢
        omega

theorem foldl_rowStep_eq (column : String) (rows : List Row) (st : List MapEntry × Nat) :
    rows.foldl (rowStep column) st = (countedCells rows column).foldl cellStep st := by
  induction rows generalizing st with
  | nil => simp [countedCells]
  | cons r rows ih =>
      rw [List.foldl_cons]
      cases hg : getCell r column with
      | none =>
          rw [show rowStep column st r = st by simp [rowStep, hg]]
          rw [ih]
          simp [countedCells, List.filterMap_cons, hg]
      | some raw =>
          by_cases hk : normalizeKey raw = ""
          · rw [show rowStep column st r = st by simp [rowStep, hg, hk]]
            rw [ih]
            simp [countedCells, List.filterMap_cons, hg, hk]
          · rw [show rowStep column st r = cellStep st raw by simp [rowStep, hg, hk, cellStep]]
            rw [ih]
            simp [countedCells, List.filterMap_cons, hg, hk]

theorem foldl_cellStep_total (cells : List Value) (st : List MapEntry × Nat) :
    entrySum (cells.foldl cellStep st).1 + st.2
      = entrySum st.1 + (cells.foldl cellStep st).2 := by
  induction cells generalizing st with
  | nil => simp
  | cons v cells ih =>
      rw [List.foldl_cons]
      have h2 := ih (cellStep st v)
      rw [show entrySum (cellStep st v).1 = entrySum st.1 + 1 by
            simp [cellStep, entrySum_bump]] at h2
      rw [show (cellStep st v).2 = st.2 + 1 from rfl] at h2
      omega

theorem analyzeData_totalRows (rows : List Row) (column : String) :
    (analyzeData rows column).totalRows = totalCount (analyzeData rows column).data := by
  simp only [analyzeData]
  rw [totalCount_eq_sum]
  rw [((List.mergeSort_perm _ itemLe).map (fun it => it.count)).sum_eq]
  have h := foldl_cellStep_total (countedCells rows column) ([], 0)
  rw [← foldl_rowStep_eq] at h
  simp [entrySum, List.map_map] at h ⊢
  rw [← h]
  rfl

theorem analyzeData_consistent (rows : List Row) (column : String) :
    Consistent (analyzeData rows column).data := by
  intro it hit
  rw [← analyzeData_totalRows]
  simp only [analyzeData] at hit ⊢
  rw [List.mem_mergeSort] at hit
  obtain ⟨e, he, rfl⟩ := List.mem_map.mp hit
  rfl

theorem analyzeData_nil (column : String) : analyzeData [] column = ⟨0, 0, []⟩ := by
  simp [analyzeData, List.mergeSort]

theorem currentData_mem (h : EditHistory) (hlt : h.historyIndex < h.history.length) :
    currentData h ∈ h.history := by
  rw [currentData, List.getD_eq_getElem _ _ hlt]
  exact List.getElem_mem hlt

theorem wf_initHistory (items : List FrequencyItem) (hc : Consistent items) :
    WF (initHistory items) := by
  refine ⟨by simp [initHistory], by simp [initHistory], ?_⟩
  intro s hs
  simp only [initHistory, List.mem_singleton] at hs
  subst hs
  exact hc

theorem wf_handleDeleteRow (n : String) (h : EditHistory) (hwf : WF h) :
    WF (handleDeleteRow n h) := by
  obtain ⟨hne, hlt, hcons⟩ := hwf
  refine ⟨by simp [handleDeleteRow], ?_, ?_⟩
  · simp only [handleDeleteRow, List.length_append, List.length_take, List.length_singleton]
    omega
  · intro s hs
    simp only [handleDeleteRow, List.mem_append, List.mem_singleton] at hs
    rcases hs with hs | hs
    · exact hcons s (List.take_subset _ _ hs)
    · subst hs
      exact consistent_deleteSnap _ _

theorem wf_handleUndo (h : EditHistory) (hwf : WF h) : WF (handleUndo h) := by
  obtain ⟨hne, hlt, hcons⟩ := hwf
  unfold handleUndo
  split
  · exact ⟨hne, by simpa using by omega, hcons⟩
  · exact ⟨hne, hlt, hcons⟩

theorem wf_handleRedo (h : EditHistory) (hwf : WF h) : WF (handleRedo h) := by
  obtain ⟨hne, hlt, hcons⟩ := hwf
  unfold handleRedo
  split
  · next hcond => exact ⟨hne, by simpa using by omega, hcons⟩
  · exact ⟨hne, hlt, hcons⟩

theorem wf_handleResetData (h : EditHistory) (hwf : WF h) : WF (handleResetData h) := by
  obtain ⟨hne, hlt, hcons⟩ := hwf
  refine ⟨by simp [handleResetData], by simp [handleResetData], ?_⟩
  intro s hs
  simp only [handleResetData, List.mem_singleton] at hs
  subst hs
  apply hcons
  cases hh : h.history with
  | nil => exact absurd hh hne
  | cons a t => simp [hh, List.getD]

theorem wf_applyOp (op : Op) (h : EditHistory) (hwf : WF h) : WF (applyOp op h) := by
  cases op with
  | deleteRow n => exact wf_handleDeleteRow n h hwf
  | undo => exact wf_handleUndo h hwf
  | redo => exact wf_handleRedo h hwf
  | reset => exact wf_handleResetData h hwf

theorem wf_runOps (ops : List Op) (h : EditHistory) (hwf : WF h) : WF (runOps ops h) := by
  induction ops generalizing h with
  | nil => exact hwf
  | cons op ops ih => exact ih (applyOp op h) (wf_applyOp op h hwf)

theorem bump_find_same (k d : String) (m : List MapEntry) :
    (bump k d m).find? (fun e => e.key == k)
      = match m.find? (fun e => e.key == k) with
        | some e => some { e with count := e.count + 1 }
        | none => some ⟨k, 1, d⟩ := by
  induction m with
  | nil => simp [bump]
  | cons e rest ih =>
      by_cases hk : e.key = k
      · simp [bump, hk, List.find?_cons]
      · simp only [bump, if_neg hk]
        rw [List.find?_cons_of_neg _ (by simp [hk]), List.find?_cons_of_neg _ (by simp [hk])]
        exact ih

theorem bump_find_other (k d q : String) (hne : q ≠ k) (m : List MapEntry) :
    (bump k d m).find? (fun e => e.key == q) = m.find? (fun e => e.key == q) := by
  induction m with
  | nil => simp [bump, Ne.symm hne]
  | cons e rest ih =>
      by_cases hk : e.key = k
      · have hq : ¬ e.key = q := by rw [hk]; exact Ne.symm hne
        simp only [bump, if_pos hk]
        rw [List.find?_cons_of_neg _ (by simp [hk, Ne.symm hne]),
          List.find?_cons_of_neg _ (by simp [hq])]
      · simp only [bump, if_neg hk]
        by_cases hq : e.key = q
        · rw [List.find?_cons_of_pos _ (by simp [hq]), List.find?_cons_of_pos _ (by simp [hq])]
        · rw [List.find?_cons_of_neg _ (by simp [hq]), List.find?_cons_of_neg _ (by simp [hq])]
          exact ih

theorem foldl_cellStep_fst (cells : List Value) (st : List MapEntry × Nat) :
    (cells.foldl cellStep st).1
      = cells.foldl (fun m v => bump (normalizeKey v) (jsTrim (jsString v)) m) st.1 := by
  induction cells generalizing st with
  | nil => rfl
  | cons v cells ih =>
      rw [List.foldl_cons, List.foldl_cons, ih]
      rfl

theorem buildMap_find (k : String) (cells : List Value) (m : List MapEntry) :
    (cells.foldl (fun m v => bump (normalizeKey v) (jsTrim (jsString v)) m) m).find?
        (fun e => e.key == k)
      = match m.find? (fun e => e.key == k) with
        | some e => some { e with count := e.count + keyCount k cells }
        | none => (firstWithKey k cells).map
            (fun v => ⟨k, keyCount k cells, jsTrim (jsString v)⟩) := by
  induction cells generalizing m with
  | nil =>
      cases hf : m.find? (fun e => e.key == k) <;>
        simp [keyCount, firstWithKey, hf]
  | cons v cells ih =>
      rw [List.foldl_cons, ih]
      by_cases hk : normalizeKey v = k
      · subst hk
        rw [bump_find_same]
        cases hf : m.find? (fun e => e.key == normalizeKey v) with
        | none =>
            simp only [hf, keyCount, firstWithKey, List.filter_cons, List.find?_cons,
              beq_self_eq_true, if_pos, Option.map_some]
            simp [MapEntry.mk.injEq]
            omega
        | some e =>
            simp only [hf, keyCount, List.filter_cons, beq_self_eq_true, if_pos]
            simp [MapEntry.mk.injEq]
            omega
      · rw [bump_find_other _ _ _ (fun hq => hk hq.symm)]
        have h1 : keyCount k (v :: cells) = keyCount k cells := by
          simp [keyCount, List.filter_cons, hk]
        have h2 : firstWithKey k (v :: cells) = firstWithKey k cells := by
          simp only [firstWithKey]
          rw [List.find?_cons_of_neg _ (by simp [hk])]
        rw [h1, h2]

theorem finalMap_find (rows : List Row) (column k : String) :
    ((rows.foldl (rowStep column) ([], 0)).1).find? (fun e => e.key == k)
      = (firstWithKey k (countedCells rows column)).map
          (fun v => ⟨k, keyCount k (countedCells rows column), jsTrim (jsString v)⟩) := by
  rw [foldl_rowStep_eq, foldl_cellStep_fst, buildMap_find]
  rfl

theorem finalMap_eq_buildMap (rows : List Row) (column : String) :
    (rows.foldl (rowStep column) ([], 0)).1
      = (countedCells rows column).foldl
          (fun m v => bump (normalizeKey v) (jsTrim (jsString v)) m) [] := by
  rw [foldl_rowStep_eq]
  simpa using foldl_cellStep_fst (countedCells rows column) ([], 0)

theorem key_of_mem_bump (k d : String) (m : List MapEntry) :
    ∀ e ∈ bump k d m, e.key = k ∨ e.key ∈ m.map (fun x => x.key) := by
  induction m with
  | nil =>
      intro e he
      simp only [bump, List.mem_singleton] at he
      subst he
      left
      rfl
  | cons x rest ih =>
      intro e he
      by_cases hk : x.key = k
      · simp only [bump, if_pos hk, List.mem_cons] at he
        rcases he with he | he
        · subst he; right; simp
        · right; simp only [List.map_cons, List.mem_cons]; right
          exact List.mem_map.mpr ⟨e, he, rfl⟩
      · simp only [bump, if_neg hk, List.mem_cons] at he
        rcases he with he | he
        · subst he; right; simp
        · rcases ih e he with h | h
          · left; exact h
          · right; simp only [List.map_cons, List.mem_cons]; right; exact h

theorem pairwise_keys_bump (k d : String) (m : List MapEntry)
    (hp : m.Pairwise (fun a b => a.key ≠ b.key)) :
    (bump k d m).Pairwise (fun a b => a.key ≠ b.key) := by
  induction m with
  | nil => simp [bump]
  | cons x rest ih =>
      rcases List.pairwise_cons.mp hp with ⟨hx, hrest⟩
      by_cases hk : x.key = k
      · simp only [bump, if_pos hk]
        exact List.pairwise_cons.mpr ⟨fun b hb => hx b hb, hrest⟩
      · simp only [bump, if_neg hk]
        refine List.pairwise_cons.mpr ⟨?_, ih hrest⟩
        intro b hb
        rcases key_of_mem_bump k d rest b hb with h | h
        · rw [h]; exact hk
        · obtain ⟨y, hy, hyk⟩ := List.mem_map.mp h
          rw [← hyk]
          exact hx y hy

theorem pairwise_keys_buildMap (cells : List Value) (m : List MapEntry)
    (hp : m.Pairwise (fun a b => a.key ≠ b.key)) :
    (cells.foldl (fun m v => bump (normalizeKey v) (jsTrim (jsString v)) m) m).Pairwise
      (fun a b => a.key ≠ b.key) := by
  induction cells generalizing m with
  | nil => exact hp
  | cons v cells ih => exact ih _ (pairwise_keys_bump _ _ _ hp)

theorem find?_eq_some_of_mem (m : List MapEntry) (e : MapEntry)
    (hp : m.Pairwise (fun a b => a.key ≠ b.key)) (he : e ∈ m) :
    m.find? (fun x => x.key == e.key) = some e := by
  induction m with
  | nil => simp at he
  | cons x rest ih =>
      rcases List.pairwise_cons.mp hp with ⟨hx, hrest⟩
      rcases List.mem_cons.mp he with he | he
      · subst he
        simp [List.find?_cons]
      · rw [List.find?_cons_of_neg _ (by simp [hx e he])]
        exact ih hrest he

theorem mem_countedCells_key_ne (rows : List Row) (column : String) (v : Value)
    (hv : v ∈ countedCells rows column) : normalizeKey v ≠ "" := by
  simp only [countedCells, List.mem_filterMap] at hv
  obtain ⟨row, hrow, hf⟩ := hv
  cases hg : getCell row column with
  | none => rw [hg] at hf; simp at hf
  | some raw =>
      rw [hg] at hf
      by_cases hk : normalizeKey raw = ""
      · simp [hk] at hf
      · simp only [if_neg hk, Option.some.injEq] at hf
        subst hf
        exact hk

theorem normalizeKey_eq_toLower_trim (v : Value) (hne : normalizeKey v ≠ "") :
    normalizeKey v = jsToLower (jsTrim (jsString v)) := by
  cases v with
  | vstr s => rfl
  | vnull => exact absurd rfl hne

theorem analyzeData_item_spec (rows : List Row) (column : String) :
    ∀ it ∈ (analyzeData rows column).data,
      it.count = keyCount it.name (countedCells rows column) ∧
      (firstWithKey it.name (countedCells rows column)).map (fun v => jsTrim (jsString v))
          = some it.originalName ∧
      it.name = jsToLower it.originalName := by
  intro it hit
  simp only [analyzeData] at hit
  rw [List.mem_mergeSort] at hit
  obtain ⟨e, he, rfl⟩ := List.mem_map.mp hit
  have hp := pairwise_keys_buildMap (countedCells rows column) [] (by simp)
  rw [← finalMap_eq_buildMap rows column] at hp
  have hfind := find?_eq_some_of_mem _ e hp he
  rw [finalMap_find] at hfind
  cases hw : firstWithKey e.key (countedCells rows column) with
  | none => rw [hw] at hfind; simp at hfind
  | some v =>
      rw [hw, Option.map_some'] at hfind
      replace hfind := Option.some.inj hfind
      have hcount : e.count = keyCount e.key (countedCells rows column) := by
        rw [← hfind]
      have hdisp : e.display = jsTrim (jsString v) := by
        rw [← hfind]
      have hkey : normalizeKey v = e.key := by
        have := List.find?_some hw
        simpa using this
      have hvmem : v ∈ countedCells rows column := List.mem_of_find?_eq_some hw
      have hkne : normalizeKey v ≠ "" := mem_countedCells_key_ne rows column v hvmem
      refine ⟨hcount, ?_, ?_⟩
      · simp [hdisp]
      · show e.key = jsToLower e.display
        rw [hdisp, ← hkey]
        exact normalizeKey_eq_toLower_trim v hkne

theorem analyzeData_names_pairwise (rows : List Row) (column : String) :
    (analyzeData rows column).data.Pairwise (fun a b => a.name ≠ b.name) := by
  have hp := pairwise_keys_buildMap (countedCells rows column) [] (by simp)
  rw [← finalMap_eq_buildMap rows column] at hp
  simp only [analyzeData]
  rw [((List.mergeSort_perm _ itemLe).pairwise_iff (fun h => Ne.symm h))]
  rw [List.pairwise_map]
  exact hp

theorem analyzeData_displayNames_pairwise (rows : List Row) (column : String) :
    (analyzeData rows column).data.Pairwise (fun a b => a.originalName ≠ b.originalName) := by
  have hspec := analyzeData_item_spec rows column
  have hp := analyzeData_names_pairwise rows column
  apply List.Pairwise.imp_of_mem ?_ hp
  intro a b ha hb hne heq
  apply hne
  rw [(hspec a ha).2.2, (hspec b hb).2.2, heq]

theorem deleteSnap_length (n : String) (items : List FrequencyItem) :
    (deleteSnap n items).length
      = (items.filter (fun it => !(it.originalName == n))).length := by
  simp [deleteSnap]

theorem length_filter_distinct (l : List FrequencyItem) (n : String)
    (hp : l.Pairwise (fun a b => a.originalName ≠ b.originalName)) :
    l.length ≤ (l.filter (fun it => !(it.originalName == n))).length + 1 := by
  induction l with
  | nil => simp
  | cons a l ih =>
      rcases List.pairwise_cons.mp hp with ⟨ha, hl⟩
      rw [List.filter_cons]
      by_cases han : a.originalName = n
      · have hkeep : l.filter (fun it => !(it.originalName == n)) = l := by
          apply List.filter_eq_self.mpr
          intro x hx
          have hxn : x.originalName ≠ n := by
            rw [← han]
            exact Ne.symm (ha x hx)
          simp [hxn]
        simp [han, hkeep]
      · have := ih hl
        simp only [List.length_cons]
        simp [han]
        omega

theorem itemLe_trans (a b c : FrequencyItem) (hab : itemLe a b = true)
    (hbc : itemLe b c = true) : itemLe a c = true := by
  simp only [itemLe, Bool.or_eq_true, Bool.and_eq_true, decide_eq_true_eq] at hab hbc ⊢
  rcases hab with hab | ⟨hab1, hab2⟩
  · rcases hbc with hbc | ⟨hbc1, hbc2⟩
    · left; omega
    · left; omega
  · rcases hbc with hbc | ⟨hbc1, hbc2⟩
    · left; omega
    · right; exact ⟨by omega, le_trans hab2 hbc2⟩

theorem itemLe_total (a b : FrequencyItem) : (itemLe a b || itemLe b a) = true := by
  simp only [itemLe, Bool.or_eq_true, Bool.and_eq_true, decide_eq_true_eq]
  rcases Nat.lt_trichotomy a.count b.count with h | h | h
  · right; left; exact h
  · rcases le_total a.originalName b.originalName with hs | hs
    · left; right; exact ⟨h, hs⟩
    · right; right; exact ⟨h.symm, hs⟩
  · left; left; exact h

theorem itemLe_tie (a b : FrequencyItem) (hab : itemLe a b = true)
    (hba : itemLe b a = true) : a.count = b.count ∧ a.originalName = b.originalName := by
  simp only [itemLe, Bool.or_eq_true, Bool.and_eq_true, decide_eq_true_eq] at hab hba
  rcases hab with hab | ⟨hab1, hab2⟩ <;> rcases hba with hba | ⟨hba1, hba2⟩
  · omega
  · omega
  · omega
  · exact ⟨hab1, le_antisymm hab2 hba2⟩

theorem analyzeData_sorted (rows : List Row) (column : String) :
    (analyzeData rows column).data.Pairwise (fun a b => itemLe a b = true) := by
  simp only [analyzeData]
  exact List.sorted_mergeSort itemLe_trans itemLe_total _

theorem getD_concat_self (xs : List (List FrequencyItem)) (x : List FrequencyItem) :
    (xs ++ [x]).getD xs.length [] = x := by
  induction xs with
  | nil => rfl
  | cons a xs ih => exact ih

theorem getD_zero_take_append (l : List (List FrequencyItem)) (hl : l ≠ [])
    (k : Nat) (m : List (List FrequencyItem)) :
    (l.take (k + 1) ++ m).getD 0 [] = l.getD 0 [] := by
  cases l with
  | nil => exact absurd rfl hl
  | cons a t => simp [List.getD]

theorem handleDeleteRow_history (n : String) (h : EditHistory) :
    (handleDeleteRow n h).history
      = h.history.take (h.historyIndex + 1) ++ [deleteSnap n (currentData h)] := rfl

theorem handleDeleteRow_index (n : String) (h : EditHistory) :
    (handleDeleteRow n h).historyIndex
      = (h.history.take (h.historyIndex + 1)).length := by
  simp [handleDeleteRow]

theorem currentData_handleDeleteRow (n : String) (h : EditHistory) :
    currentData (handleDeleteRow n h) = deleteSnap n (currentData h) := by
  rw [currentData, handleDeleteRow_history, handleDeleteRow_index]
  exact getD_concat_self _ _

theorem handleUndo_history (h : EditHistory) : (handleUndo h).history = h.history := by
  unfold handleUndo
  split <;> rfl

theorem handleRedo_history (h : EditHistory) : (handleRedo h).history = h.history := by
  unfold handleRedo
  split <;> rfl

theorem deleteSnap_eq_self (n : String) (items : List FrequencyItem)
    (habs : ∀ it ∈ items, it.originalName ≠ n) (hc : Consistent items) :
    deleteSnap n items = items := by
  have hfilter : items.filter (fun it => !(it.originalName == n)) = items := by
    apply List.filter_eq_self.mpr
    intro it hit
    simp [habs it hit]
  simp only [deleteSnap, hfilter]
  refine Eq.trans (List.map_congr_left ?_) (List.map_id items)
  intro it hit
  have hp := hc it hit
  simp only [totalCount] at hp
  cases it with
  | mk nm dn ct pc =>
      simp only [id_eq, FrequencyItem.mk.injEq, true_and]
      exact hp.symm

/-! ### The claims -/

/-- C2: `deleteCategory(displayName)` filters out the items whose display
name equals the argument from the current snapshot, recomputes every
remaining percentage as `count / newTotal * 100` against the new total (0
when the new total is 0), and the new snapshot becomes the current one;
concretely, deleting `X` from `[{X, 3, 75%}, {Y, 1, 25%}]` yields exactly
`[{Y, 1, 100%}]` with `totalRows = 1`. -/
theorem C2_delete_recalculation :
    (∀ (h : EditHistory) (n : String),
      currentData (handleDeleteRow n h) = deleteSnap n (currentData h) ∧
      deleteSnap n (currentData h)
        = ((currentData h).filter (fun it => !(it.originalName == n))).map
            (fun it =>
              { it with percentage :=
                  if 0 < totalCount ((currentData h).filter (fun it => !(it.originalName == n)))
                  then (it.count : ℚ)
                      / (totalCount ((currentData h).filter (fun it => !(it.originalName == n))) : ℚ)
                      * 100
                  else 0 })) ∧
    currentStats (handleDeleteRow "X"
        (initHistory [⟨"x", "X", 3, 75⟩, ⟨"y", "Y", 1, 25⟩]))
      = ⟨1, 1, [⟨"y", "Y", 1, 100⟩]⟩ := by
  refine ⟨fun h n => ⟨currentData_handleDeleteRow n h, rfl⟩, ?_⟩
  norm_num +decide [currentStats, currentData, handleDeleteRow, deleteSnap, initHistory,
    totalCount, List.filter_cons]

/-- C3: undo/redo round-trip: from any initial snapshot `S0`, after
`init(S0)` and one `deleteCategory(A)`, `undo()` makes the current snapshot
exactly `S0` again, and a subsequent `redo()` restores the post-delete state
exactly. -/
theorem C3_undo_redo_roundtrip (S0 : List FrequencyItem) (A : String) :
    currentData (handleUndo (handleDeleteRow A (initHistory S0))) = S0 ∧
    handleRedo (handleUndo (handleDeleteRow A (initHistory S0)))
        = handleDeleteRow A (initHistory S0) ∧
    currentData (handleRedo (handleUndo (handleDeleteRow A (initHistory S0))))
        = currentData (handleDeleteRow A (initHistory S0)) := by
  have h1 : handleDeleteRow A (initHistory S0)
      = ⟨[S0, deleteSnap A S0], 1⟩ := by
    simp [handleDeleteRow, initHistory, currentData, List.getD]
  rw [h1]
  refine ⟨?_, ?_, ?_⟩ <;> simp [handleUndo, handleRedo, currentData, List.getD]

/-- C4: branch truncation: `deleteCategory` truncates the history to
positions `[0..cursor]`, appends the new snapshot, and points the cursor at
it; hence after `init(S0)`, `delete(A)`, `delete(B)`, `undo()`, `delete(C)`
the history is exactly `[S0, S1, S1c]` (the old `S2` path is gone) and
`redo()` is a no-op. -/
theorem C4_branch_truncation (S0 : List FrequencyItem) (A B C : String) :
    (∀ (h : EditHistory) (n : String),
      (handleDeleteRow n h).history
          = h.history.take (h.historyIndex + 1) ++ [deleteSnap n (currentData h)] ∧
      (handleDeleteRow n h).historyIndex
          = (h.history.take (h.historyIndex + 1)).length) ∧
    (handleDeleteRow C (handleUndo (handleDeleteRow B
        (handleDeleteRow A (initHistory S0))))).history
      = [S0, deleteSnap A S0, deleteSnap C (deleteSnap A S0)] ∧
    (handleDeleteRow C (handleUndo (handleDeleteRow B
        (handleDeleteRow A (initHistory S0))))).historyIndex = 2 ∧
    handleRedo (handleDeleteRow C (handleUndo (handleDeleteRow B
        (handleDeleteRow A (initHistory S0)))))
      = handleDeleteRow C (handleUndo (handleDeleteRow B
          (handleDeleteRow A (initHistory S0)))) := by
  have h1 : handleDeleteRow A (initHistory S0) = ⟨[S0, deleteSnap A S0], 1⟩ := by
    simp [handleDeleteRow, initHistory, currentData, List.getD]
  have h2 : handleDeleteRow B (handleDeleteRow A (initHistory S0))
      = ⟨[S0, deleteSnap A S0, deleteSnap B (deleteSnap A S0)], 2⟩ := by
    rw [h1]
    simp [handleDeleteRow, currentData, List.getD]
  have h3 : handleUndo (handleDeleteRow B (handleDeleteRow A (initHistory S0)))
      = ⟨[S0, deleteSnap A S0, deleteSnap B (deleteSnap A S0)], 1⟩ := by
    rw [h2]
    simp [handleUndo]
  have h4 : handleDeleteRow C (handleUndo (handleDeleteRow B
      (handleDeleteRow A (initHistory S0))))
      = ⟨[S0, deleteSnap A S0, deleteSnap C (deleteSnap A S0)], 2⟩ := by
    rw [h3]
    simp [handleDeleteRow, currentData, List.getD, List.take]
  refine ⟨fun h n => ⟨handleDeleteRow_history n h, handleDeleteRow_index n h⟩, ?_, ?_, ?_⟩
  · rw [h4]
  · rw [h4]
  · rw [h4]
    simp [handleRedo]

/-- C1: after any sequence of operations run from a history initialized with
an `analyzeData` result, the history is non-empty and the cursor is in
range; and both the `analyzeData` result and the current-snapshot projection
satisfy: `totalRows` is the sum of the item counts, `uniqueCategories` is
the number of items, and the percentages sum to exactly 100 (over `ℚ`)
whenever `totalRows > 0`. -/
theorem C1_invariants (rows : List Row) (column : String) (ops : List Op) :
    1 ≤ (runOps ops (initHistory (analyzeData rows column).data)).history.length ∧
    (runOps ops (initHistory (analyzeData rows column).data)).historyIndex
        < (runOps ops (initHistory (analyzeData rows column).data)).history.length ∧
    (analyzeData rows column).totalRows = totalCount (analyzeData rows column).data ∧
    (analyzeData rows column).uniqueCategories = (analyzeData rows column).data.length ∧
    (0 < (analyzeData rows column).totalRows → pctSum (analyzeData rows column).data = 100) ∧
    (currentStats (runOps ops (initHistory (analyzeData rows column).data))).totalRows
        = totalCount
            (currentStats (runOps ops (initHistory (analyzeData rows column).data))).data ∧
    (currentStats (runOps ops (initHistory (analyzeData rows column).data))).uniqueCategories
        = (currentStats (runOps ops (initHistory (analyzeData rows column).data))).data.length ∧
    (0 < (currentStats (runOps ops (initHistory (analyzeData rows column).data))).totalRows →
      pctSum (currentStats (runOps ops (initHistory (analyzeData rows column).data))).data
        = 100) := by
  have hwf : WF (runOps ops (initHistory (analyzeData rows column).data)) :=
    wf_runOps _ _ (wf_initHistory _ (analyzeData_consistent rows column))
  obtain ⟨hne, hlt, hcons⟩ := hwf
  refine ⟨List.length_pos.mpr hne, hlt, analyzeData_totalRows rows column, rfl, ?_, rfl, rfl, ?_⟩
  · intro hpos
    rw [analyzeData_totalRows] at hpos
    exact pctSum_of_consistent _ (analyzeData_consistent rows column) hpos
  · intro hpos
    have hmem := currentData_mem _ hlt
    exact pctSum_of_consistent _ (hcons _ hmem) hpos

/-- C5 counterexample: deleting a display name that occurs in no current
item is not a pure no-op on the history: from a freshly initialized
one-snapshot history, `handleDeleteRow "X"` (with `"X"` absent) grows the
history to two snapshots, so the state differs from the original. -/
theorem C5_counterexample :
    (initHistory [⟨"y", "Y", 1, 100⟩]).history.length = 1 ∧
    (currentData (initHistory [⟨"y", "Y", 1, 100⟩])).all
        (fun it => !(it.originalName == "X")) = true ∧
    (handleDeleteRow "X" (initHistory [⟨"y", "Y", 1, 100⟩])).history.length = 2 ∧
    handleDeleteRow "X" (initHistory [⟨"y", "Y", 1, 100⟩])
        ≠ initHistory [⟨"y", "Y", 1, 100⟩] := by
  refine ⟨rfl, by decide, rfl, ?_⟩
  intro heq
  have hlen := congrArg (fun st => st.history.length) heq
  simp only [handleDeleteRow, initHistory] at hlen
  exact absurd hlen (by decide)

/-- C5 (amended): in any state, `undo` at cursor 0 and `redo` at the last
index leave the state unchanged, and `deleteCategory` of an absent display
name leaves the current snapshot's content unchanged (when the snapshot's
percentages are consistent with its own total) — but it still truncates the
redo branch and appends a new, content-identical snapshot rather than
leaving the history untouched; no operation can fail (all are total
functions). -/
theorem C5_boundary_noops (h : EditHistory) (n : String) :
    (h.historyIndex = 0 → handleUndo h = h) ∧
    (h.historyIndex = h.history.length - 1 → handleRedo h = h) ∧
    ((∀ it ∈ currentData h, it.originalName ≠ n) → Consistent (currentData h) →
      currentData (handleDeleteRow n h) = currentData h ∧
      (handleDeleteRow n h).history
          = h.history.take (h.historyIndex + 1) ++ [currentData h]) := by
  refine ⟨?_, ?_, ?_⟩
  · intro h0
    simp [handleUndo, h0]
  · intro hl
    simp [handleRedo, hl]
  · intro habs hc
    have hsnap := deleteSnap_eq_self n (currentData h) habs hc
    refine ⟨?_, ?_⟩
    · rw [currentData_handleDeleteRow, hsnap]
    · rw [handleDeleteRow_history, hsnap]

/-- C6: the first snapshot's content is preserved by `deleteCategory`,
`undo` and `redo`; `resetToOrigin` truncates the history to exactly the
first snapshot with cursor 0, after which the history has length 1 and
`redo` is a no-op. -/
theorem C6_origin_preservation (h : EditHistory) (n : String) (hne : h.history ≠ []) :
    (handleDeleteRow n h).history.getD 0 [] = h.history.getD 0 [] ∧
    (handleUndo h).history = h.history ∧
    (handleRedo h).history = h.history ∧
    (handleResetData h).history = [h.history.getD 0 []] ∧
    (handleResetData h).historyIndex = 0 ∧
    (handleResetData h).history.length = 1 ∧
    handleRedo (handleResetData h) = handleResetData h := by
  refine ⟨?_, handleUndo_history h, handleRedo_history h, rfl, rfl, rfl, ?_⟩
  · rw [handleDeleteRow_history]
    exact getD_zero_take_append h.history hne h.historyIndex _
  · simp [handleRedo, handleResetData]

/-- C7: `analyzeData` groups the counted cells by their normalized
(lowercased, trimmed) key, each item's count is the number of counted cells
with its key, and its display name is the trimmed string form of the first
counted cell with that key (never a later one); null/unset cells normalize
to the empty key and are skipped (they never appear among the counted
cells). Concretely, analyzing `["  Red ", "red", "RED"]` yields exactly one
item with count 3, display name `"Red"`, percentage 100. -/
theorem C7_normalization_equivalence (rows : List Row) (column : String) :
    (∀ it ∈ (analyzeData rows column).data,
      it.count = keyCount it.name (countedCells rows column) ∧
      (firstWithKey it.name (countedCells rows column)).map (fun v => jsTrim (jsString v))
          = some it.originalName) ∧
    (∀ v ∈ countedCells rows column, normalizeKey v ≠ "") ∧
    analyzeData [[("c", Value.vstr "  Red ")], [("c", Value.vstr "red")],
        [("c", Value.vstr "RED")]] "c"
      = ⟨3, 1, [⟨"red", "Red", 3, 100⟩]⟩ := by
  refine ⟨?_, mem_countedCells_key_ne rows column, ?_⟩
  · intro it hit
    exact ⟨(analyzeData_item_spec rows column it hit).1,
      (analyzeData_item_spec rows column it hit).2.1⟩
  · norm_num +decide [analyzeData, rowStep, getCell, normalizeKey, jsString, bump,
      List.mergeSort, List.merge, itemLe]

/-- C8: the items of every `analyzeData` result are sorted by the comparator
(count descending, ties by ascending display name); the comparator is total,
and two items tie in both directions only when their counts are equal and
their display names are identical. Concretely, analyzing
`["B", "A", "B", "A"]` yields `[{A, 2, 50%}, {B, 2, 50%}]`. -/
theorem C8_deterministic_ordering (rows : List Row) (column : String) :
    (analyzeData rows column).data.Pairwise (fun a b => itemLe a b = true) ∧
    (∀ a b : FrequencyItem, (itemLe a b || itemLe b a) = true) ∧
    (∀ a b : FrequencyItem, itemLe a b = true → itemLe b a = true →
      a.count = b.count ∧ a.originalName = b.originalName) ∧
    analyzeData [[("c", Value.vstr "B")], [("c", Value.vstr "A")],
        [("c", Value.vstr "B")], [("c", Value.vstr "A")]] "c"
      = ⟨4, 2, [⟨"a", "A", 2, 50⟩, ⟨"b", "B", 2, 50⟩]⟩ := by
  refine ⟨analyzeData_sorted rows column, itemLe_total, itemLe_tie, ?_⟩
  norm_num +decide [analyzeData, rowStep, getCell, normalizeKey, jsString, bump,
    List.mergeSort, List.merge, itemLe]

/-- C9: `analyzeData` is total (it is a Lean function, so it cannot throw);
the empty row set yields the empty result, a row set in which no row has the
column yields the same empty result, and a row whose cell is absent or
normalizes to the empty string is skipped entirely — removing it from the
input changes nothing. -/
theorem C9_degraded_analysis (column : String) (rows pre post : List Row) (r : Row)
    (hall : ∀ row ∈ rows, getCell row column = none)
    (hskip : ∀ raw, getCell r column = some raw → normalizeKey raw = "") :
    analyzeData [] column = ⟨0, 0, []⟩ ∧
    analyzeData rows column = ⟨0, 0, []⟩ ∧
    analyzeData (pre ++ r :: post) column = analyzeData (pre ++ post) column := by
  have hstep : ∀ st, rowStep column st r = st := by
    intro st
    cases hg : getCell r column with
    | none => simp [rowStep, hg]
    | some raw => simp [rowStep, hg, hskip raw hg]
  refine ⟨analyzeData_nil column, ?_, ?_⟩
  · have hfold : ∀ (rs : List Row), (∀ row ∈ rs, getCell row column = none) →
        ∀ st, rs.foldl (rowStep column) st = st := by
      intro rs hrs
      induction rs with
      | nil => intro st; rfl
      | cons row rest ih =>
          intro st
          rw [List.foldl_cons, show rowStep column st row = st by
            simp [rowStep, hrs row (by simp)]]
          exact ih (fun r hr => hrs r (by simp [hr])) st
    simp [analyzeData, hfold rows hall, List.mergeSort]
  · have hmid : ∀ st, (pre ++ r :: post).foldl (rowStep column) st
        = (pre ++ post).foldl (rowStep column) st := by
      intro st
      rw [List.foldl_append, List.foldl_append, List.foldl_cons, hstep]
    simp [analyzeData, hmid]

/-- C10 (implicit): in every `analyzeData` result the normalized key of each
item is the lowercasing of its (already trimmed) display name, display names
are pairwise distinct, and therefore the delete-category filter removes at
most one item from such a snapshot. -/
theorem C10_unique_display_names (rows : List Row) (column : String) (n : String) :
    (∀ it ∈ (analyzeData rows column).data, it.name = jsToLower it.originalName) ∧
    (analyzeData rows column).data.Pairwise (fun a b => a.originalName ≠ b.originalName) ∧
    (analyzeData rows column).data.length
        ≤ (deleteSnap n (analyzeData rows column).data).length + 1 := by
  refine ⟨fun it hit => (analyzeData_item_spec rows column it hit).2.2,
    analyzeData_displayNames_pairwise rows column, ?_⟩
  rw [deleteSnap_length]
  exact length_filter_distinct _ n (analyzeData_displayNames_pairwise rows column)

/-! ### Concrete instantiations of the conditional claim theorems -/

/-- C1 instantiated on a concrete two-category analysis and a concrete
operation sequence. -/
theorem C1_invariants_witness :
    1 ≤ (runOps [Op.deleteRow "A", Op.undo, Op.redo, Op.reset]
        (initHistory (analyzeData [[("c", Value.vstr "A")], [("c", Value.vstr "B")]]
          "c").data)).history.length ∧
    pctSum (analyzeData [[("c", Value.vstr "A")], [("c", Value.vstr "B")]] "c").data = 100 ∧
    pctSum (currentStats (runOps [Op.deleteRow "A", Op.undo, Op.redo, Op.reset]
        (initHistory (analyzeData [[("c", Value.vstr "A")], [("c", Value.vstr "B")]]
          "c").data))).data = 100 := by
  have h := C1_invariants [[("c", Value.vstr "A")], [("c", Value.vstr "B")]] "c"
      [Op.deleteRow "A", Op.undo, Op.redo, Op.reset]
  refine ⟨h.1, h.2.2.2.2.1 ?_, h.2.2.2.2.2.2.2 ?_⟩
  · norm_num +decide [analyzeData, rowStep, getCell, normalizeKey, jsString, bump,
      List.mergeSort, List.merge, itemLe]
  · norm_num +decide [runOps, applyOp, handleDeleteRow, handleUndo, handleRedo,
      handleResetData, currentStats, currentData, initHistory, deleteSnap, totalCount,
      analyzeData, rowStep, getCell, normalizeKey, jsString, bump, List.mergeSort,
      List.merge, itemLe, List.filter_cons, List.getD]

/-- C5 (amended) instantiated on a concrete one-snapshot history with an
absent display name. -/
theorem C5_boundary_noops_witness :
    handleUndo (initHistory [⟨"y", "Y", 1, 100⟩]) = initHistory [⟨"y", "Y", 1, 100⟩] ∧
    handleRedo (initHistory [⟨"y", "Y", 1, 100⟩]) = initHistory [⟨"y", "Y", 1, 100⟩] ∧
    currentData (handleDeleteRow "X" (initHistory [⟨"y", "Y", 1, 100⟩]))
        = currentData (initHistory [⟨"y", "Y", 1, 100⟩]) := by
  have h := C5_boundary_noops (initHistory [⟨"y", "Y", 1, 100⟩]) "X"
  refine ⟨h.1 rfl, h.2.1 rfl, (h.2.2 ?_ ?_).1⟩
  · intro it hit
    simp only [initHistory, currentData, List.getD, List.get?, Option.getD,
      List.mem_singleton] at hit
    subst hit
    decide
  · intro it hit
    simp only [initHistory, currentData, List.getD, List.get?, Option.getD,
      List.mem_singleton] at hit
    subst hit
    norm_num [totalCount, initHistory, currentData, List.getD, List.get?]

/-- C6 instantiated on a concrete non-empty history. -/
theorem C6_origin_preservation_witness :
    (handleResetData (initHistory [⟨"y", "Y", 1, 100⟩])).history
        = [[⟨"y", "Y", 1, 100⟩]] ∧
    handleRedo (handleResetData (initHistory [⟨"y", "Y", 1, 100⟩]))
        = handleResetData (initHistory [⟨"y", "Y", 1, 100⟩]) := by
  have h := C6_origin_preservation (initHistory [⟨"y", "Y", 1, 100⟩]) "X"
      (by simp [initHistory])
  exact ⟨h.2.2.2.1, h.2.2.2.2.2.2⟩

/-- C7 instantiated: the single item of the `["  Red ", "red", "RED"]`
analysis indeed counts all three cells under key `"red"` and takes its
display name from the first cell. -/
theorem C7_normalization_equivalence_witness :
    keyCount "red" (countedCells [[("c", Value.vstr "  Red ")], [("c", Value.vstr "red")],
        [("c", Value.vstr "RED")]] "c") = 3 ∧
    (firstWithKey "red" (countedCells [[("c", Value.vstr "  Red ")], [("c", Value.vstr "red")],
        [("c", Value.vstr "RED")]] "c")).map (fun v => jsTrim (jsString v))
      = some "Red" := by
  have h := C7_normalization_equivalence [[("c", Value.vstr "  Red ")],
      [("c", Value.vstr "red")], [("c", Value.vstr "RED")]] "c"
  have hd : (analyzeData [[("c", Value.vstr "  Red ")], [("c", Value.vstr "red")],
      [("c", Value.vstr "RED")]] "c").data = [⟨"red", "Red", 3, 100⟩] :=
    congrArg AnalysisResult.data h.2.2
  have hmem : (⟨"red", "Red", 3, 100⟩ : FrequencyItem)
      ∈ (analyzeData [[("c", Value.vstr "  Red ")], [("c", Value.vstr "red")],
          [("c", Value.vstr "RED")]] "c").data := by
    rw [hd]
    exact List.mem_singleton.mpr rfl
  have hit := h.1 _ hmem
  exact ⟨hit.1.symm, hit.2⟩

/-- C8 instantiated: the comparator is total on two concrete items and the
two-way-tie consequence holds on a concrete item. -/
theorem C8_deterministic_ordering_witness :
    ((itemLe ⟨"a", "A", 2, 50⟩ ⟨"b", "B", 2, 50⟩
        || itemLe ⟨"b", "B", 2, 50⟩ ⟨"a", "A", 2, 50⟩) = true) ∧
    ((⟨"a", "A", 2, 50⟩ : FrequencyItem).count = (⟨"a", "A", 2, 50⟩ : FrequencyItem).count ∧
      (⟨"a", "A", 2, 50⟩ : FrequencyItem).originalName
        = (⟨"a", "A", 2, 50⟩ : FrequencyItem).originalName) := by
  have h := C8_deterministic_ordering [] "c"
  refine ⟨h.2.1 _ _, h.2.2.1 _ _ ?_ ?_⟩ <;> norm_num [itemLe]

/-- C9 instantiated: a column-less row set degrades to the empty result and
a null cell is skipped. -/
theorem C9_degraded_analysis_witness :
    analyzeData [] "c" = ⟨0, 0, []⟩ ∧
    analyzeData [[("d", Value.vstr "x")]] "c" = ⟨0, 0, []⟩ ∧
    analyzeData ([[("c", Value.vstr "A")]] ++ [("c", Value.vnull)] :: []) "c"
        = analyzeData ([[("c", Value.vstr "A")]] ++ []) "c" := by
  refine C9_degraded_analysis "c" [[("d", Value.vstr "x")]] [[("c", Value.vstr "A")]] []
      [("c", Value.vnull)] ?_ ?_
  · intro row hrow
    simp only [List.mem_singleton] at hrow
    subst hrow
    rfl
  · intro raw hr
    rw [show getCell [("c", Value.vnull)] "c" = some Value.vnull from rfl] at hr
    injection hr with hv
    subst hv
    rfl

/-- C10 instantiated on a concrete one-item analysis. -/
theorem C10_unique_display_names_witness :
    (⟨"a", "A", 1, 100⟩ : FrequencyItem).name
        = jsToLower (⟨"a", "A", 1, 100⟩ : FrequencyItem).originalName ∧
    (analyzeData [[("c", Value.vstr "A")]] "c").data.length
        ≤ (deleteSnap "A" (analyzeData [[("c", Value.vstr "A")]] "c").data).length + 1 := by
  have h := C10_unique_display_names [[("c", Value.vstr "A")]] "c" "A"
  have hd : (analyzeData [[("c", Value.vstr "A")]] "c").data = [⟨"a", "A", 1, 100⟩] := by
    norm_num +decide [analyzeData, rowStep, getCell, normalizeKey, jsString, bump,
      List.mergeSort, itemLe]
  exact ⟨h.1 _ (by rw [hd]; exact List.mem_singleton.mpr rfl), h.2.2⟩

end RGCT
